import Mathlib

/-!
Verification of the DeepWalk trainer (`examples/pytorch/deepwalk/deepwalk.py`).

The embedding models the trainer's control flow as pure functions producing
traces of events.  A `learn` event records one call of
`emb_model.fast_learn_super`: the batch of walks passed, the learning rate
passed, and (when `fast_neg` is disabled) the number of negative node
indices drawn from the dataset's negative-sampling table and passed along.
Python exceptions (`ZeroDivisionError`, `AssertionError`) are modelled by
`Except` error values; loops are given explicit fuel, with dedicated
lemmas showing the fuel never runs out when it is at least the batch count.
Float arithmetic on learning rates is modelled by exact rationals, and
`int(x / y)` on nonnegative ints by Nat division.
-/

namespace Deepwalk

/-- A random walk: a sequence of node indices. -/
abbrev Walk := List ℕ

/-- Errors a run can raise.  `zeroDivCeil` is the `ZeroDivisionError` from
`len(walks) / batch_size` in the `num_batches` computation, `zeroDivLR` the
one from `... / max_i` in the learning-rate computation, `zeroDivMod` the one
from `i % num_batches`, and `assertFail` an `AssertionError` from
`init_device_emb`.  `fuelOut` is a modelling artifact: the loop fuel ran
out (lemmas below show it cannot occur with enough fuel). -/
inductive Err where
  | zeroDivCeil : Err
  | zeroDivLR : Err
  | zeroDivMod : Err
  | assertFail : Err
  | fuelOut : Err
deriving DecidableEq

/-- The command-line configuration (`args`).  Default values are the
`argparse` defaults from the `__main__` block of `deepwalk.py`. -/
structure Args where
  dim : ℕ := 128
  window_size : ℕ := 5
  num_walks : ℕ := 10
  negative : ℕ := 5
  iterations : ℕ := 1
  batch_size : ℕ := 10
  print_interval : ℕ := 1000
  walk_length : ℕ := 80
  lr : ℚ := 1 / 5
  neg_weight : ℚ := 1
  lap_norm : ℚ := 1 / 100
  mix : Bool := false
  only_cpu : Bool := false
  only_gpu : Bool := false
  fast_neg : Bool := true
  adam : Bool := false
  sgd : Bool := false
  avg_sgd : Bool := false
  num_threads : ℕ := 8
  num_procs : ℕ := 1
deriving DecidableEq

/-- Semantics of an `argparse` option declared with `action="store_true"`
and the given default: the option's value is `true` when the flag is
present on the command line and the declared default otherwise. -/
def storeTrue (default : Bool) (present : Bool) : Bool :=
  if present then true else default

/-- The value of `args.fast_neg`: declared
`parser.add_argument('--fast_neg', default=True, action="store_true")`. -/
def argFastNeg (present : Bool) : Bool :=
  storeTrue true present

/-- One observable action of a training run.  `shuffle` records a call of
`shuffle_walks` on the current walk list; `learn` records a call of
`emb_model.fast_learn_super(batch, lr, neg_nodes)` where `negSize` is
`none` in the `fast_neg` branch and `some n` with `n` the number of
negative node indices drawn from the negative-sampling table otherwise. -/
inductive Event where
  | shuffle : Event
  | learn : List Walk → ℚ → Option ℤ → Event
deriving DecidableEq

/-- Python `sum` over a list of booleans (`True` counts 1). -/
def bsum (l : List Bool) : ℕ :=
  (l.map (fun b => if b then 1 else 0)).sum

/-- Python slice `l[lo:hi]` for nonnegative bounds. -/
def pySlice {α : Type} (l : List α) (lo hi : ℕ) : List α :=
  (l.drop lo).take (hi - lo)

/-- Model of `int(np.ceil(x / y))` on nonnegative ints: raises `ZeroDivisionError`
when `y = 0`.  Used for the `num_batches` computations. -/
def pyCeilDiv (x y : ℕ) : Except Err ℕ :=
  if y = 0 then .error .zeroDivCeil else .ok ((x + y - 1) / y)

/-- The value of the decayed learning rate at step `i` with horizon `maxI`:
`lr = initial_lr * (max_i - i) / max_i`, then `if lr < 0.00001: lr = 0.00001`. -/
def decayVal (lr0 : ℚ) (maxI i : ℕ) : ℚ :=
  let lr := lr0 * ((maxI : ℚ) - (i : ℚ)) / (maxI : ℚ)
  if lr < 1 / 100000 then 1 / 100000 else lr

/-- The learning-rate computation of the training loops, including the
`ZeroDivisionError` raised when `max_i = 0`. -/
def decayLR (lr0 : ℚ) (maxI i : ℕ) : Except Err ℚ :=
  if maxI = 0 then .error .zeroDivLR else .ok (decayVal lr0 maxI i)

/-- The value `num_pos`, the number of positive node pairs in one walk:
`2 * walk_length * window_size - window_size * (window_size + 1)`
(Python int arithmetic, so the value may be negative). -/
def numPos (a : Args) : ℤ :=
  2 * (a.walk_length : ℤ) * (a.window_size : ℤ)
    - (a.window_size : ℤ) * ((a.window_size : ℤ) + 1)

/-- The `fast_learn_super` call made on one batch: in the `fast_neg` branch
no negative-node tensor is passed; otherwise
`np.random.choice(neg_table, bs * num_pos * negative)` draws exactly
`bs * num_pos * negative` indices, with `bs = len(batch)`. -/
def mkLearn (a : Args) (nPos : ℤ) (batch : List Walk) (lr : ℚ) : Event :=
  if a.fast_neg then .learn batch lr none
  else .learn batch lr (some ((batch.length : ℤ) * nPos * (a.negative : ℤ)))

/-- The batch taken at step counter `i`:
`i_ = int(i % num_batches)` followed by the slice
`walks[i_ * batch_size : (1 + i_) * batch_size]`. -/
def batchAt (a : Args) (walks : List Walk) (numB i : ℕ) : List Walk :=
  pySlice walks ((i % numB) * a.batch_size) ((1 + i % numB) * a.batch_size)

/-- The learn event emitted at step counter `i` of a loop over `walks` with
`num_batches = numB` and learning-rate horizon `maxI`. -/
def stepEv (a : Args) (nPos : ℤ) (walks : List Walk) (numB maxI i : ℕ) : Event :=
  mkLearn a nPos (batchAt a walks numB i) (decayVal a.lr maxI i)

/-- The `while True:` loop shared by `fast_train_sp` and (per epoch)
`fast_train`: compute the decayed learning rate, slice the batch at
`i % num_batches`, stop on an empty batch, otherwise call
`fast_learn_super`, increment `i`, and stop after the batch at index
`num_batches - 1`.  Returns the emitted learn events and the final value
of the step counter `i`. -/
def trainLoop (a : Args) (nPos : ℤ) (walks : List Walk) (numB maxI : ℕ) :
    ℕ → ℕ → Except Err (List Event × ℕ)
  | 0, _ => .error .fuelOut
  | fuel + 1, i =>
    match decayLR a.lr maxI i with
    | .error e => .error e
    | .ok lr =>
      if numB = 0 then .error .zeroDivMod
      else if (batchAt a walks numB i).length = 0 then .ok ([], i)
      else if i % numB = numB - 1 then
        .ok ([mkLearn a nPos (batchAt a walks numB i) lr], i + 1)
      else
        match trainLoop a nPos walks numB maxI fuel (i + 1) with
        | .error e => .error e
        | .ok (evs, iEnd) => .ok (mkLearn a nPos (batchAt a walks numB i) lr :: evs, iEnd)

/-- Model of `init_device_emb`: asserts exactly one device mode among
`[only_gpu, only_cpu, mix]`, then `num_procs >= 1`, then exactly one
optimizer among `[sgd, adam, avg_sgd]`.  Device placement itself has no
observable effect on the traces modelled here. -/
def initDeviceEmb (a : Args) : Except Err Unit :=
  if bsum [a.only_gpu, a.only_cpu, a.mix] = 1 then
    if 1 ≤ a.num_procs then
      if bsum [a.sgd, a.adam, a.avg_sgd] = 1 then .ok () else .error .assertFail
    else .error .assertFail
  else .error .assertFail

/-- Model of `fast_train_sp`, a worker of `fast_train_mp`: computes
`num_batches = int(np.ceil(len(walks) / batch_size))` and
`max_i = iterations * num_batches`, then runs the batch loop once
starting from `i = 0`. -/
def fastTrainSP (a : Args) (walks : List Walk) (fuel : ℕ) : Except Err (List Event) :=
  match pyCeilDiv walks.length a.batch_size with
  | .error e => .error e
  | .ok numB =>
    match trainLoop a (numPos a) walks numB (a.iterations * numB) fuel 0 with
    | .error e => .error e
    | .ok (evs, _) => .ok evs

/-- The `for iteration in range(iterations):` loop of `fast_train`: each
epoch reassigns `self.dataset.walks = shuffle_walks(self.dataset.walks)`
and runs the batch loop, the step counter `i` carrying over between
epochs.  `shuffle` is the (abstracted, epoch-indexed) `shuffle_walks`. -/
def epochsLoop (a : Args) (shuffle : ℕ → List Walk → List Walk) (nPos : ℤ)
    (numB maxI fuel : ℕ) : ℕ → ℕ → List Walk → ℕ → Except Err (List Event)
  | 0, _, _, _ => .ok []
  | iters + 1, ep, walks, i =>
    match trainLoop a nPos (shuffle ep walks) numB maxI fuel i with
    | .error e => .error e
    | .ok (evs, iEnd) =>
      match epochsLoop a shuffle nPos numB maxI fuel iters (ep + 1) (shuffle ep walks) iEnd with
      | .error e => .error e
      | .ok rest => .ok (Event.shuffle :: evs ++ rest)

/-- Model of `fast_train` (single process): computes `num_pos` and
`num_batches = int(np.ceil(len(net) * num_walks / batch_size))`, calls
`init_device_emb`, sets `max_i = iterations * num_batches`, and runs
`iterations` epochs.  `embSize = len(self.dataset.net)`. -/
def fastTrain (a : Args) (embSize : ℕ) (shuffle : ℕ → List Walk → List Walk)
    (walks0 : List Walk) (fuel : ℕ) : Except Err (List Event) :=
  match pyCeilDiv (embSize * a.num_walks) a.batch_size with
  | .error e => .error e
  | .ok numB =>
    match initDeviceEmb a with
    | .error e => .error e
    | .ok _ =>
      epochsLoop a shuffle (numPos a) numB (a.iterations * numB) fuel a.iterations 0 walks0 0

/-- The lower slicing bound of shard `i` in `fast_train_mp`:
`int(i * l / np_)` with `l` the number of walks and `np_ = num_procs`. -/
def shardStart (P L i : ℕ) : ℕ :=
  i * L / P

/-- Shard `i` of the walk list in `fast_train_mp`:
`walks[int(i * l / np_) : int((i + 1) * l / np_)]`. -/
def mpShard (P : ℕ) (walks : List Walk) (i : ℕ) : List Walk :=
  pySlice walks (shardStart P walks.length i) (shardStart P walks.length (i + 1))

/-- Model of `fast_train_mp`: calls `init_device_emb`, shuffles the walks once,
partitions them into `num_procs` shards, and spawns one `fast_train_sp`
worker per shard.  Each worker's outcome is recorded separately (a worker
exception does not abort the parent). -/
def fastTrainMP (a : Args) (shuffleOnce : List Walk → List Walk)
    (walks0 : List Walk) (fuel : ℕ) : Except Err (List (Except Err (List Event))) :=
  match initDeviceEmb a with
  | .error e => .error e
  | .ok _ =>
    .ok ((List.range a.num_procs).map
      (fun i => fastTrainSP a (mpShard a.num_procs (shuffleOnce walks0) i) fuel))

/-- The learning rate carried by a learn event. -/
def evLR : Event → Option ℚ
  | .shuffle => none
  | .learn _ lr _ => some lr

/-- The negative-sample count carried by a learn event. -/
def evNegSize : Event → Option (Option ℤ)
  | .shuffle => none
  | .learn _ _ ns => some ns

/-- The learning rates passed to successive `fast_learn_super` calls of a
trace, in order. -/
def learnLRs (evs : List Event) : List ℚ :=
  evs.filterMap evLR

/-- The negative-sample counts of successive `fast_learn_super` calls of a
trace, in order. -/
def negSizes (evs : List Event) : List (Option ℤ) :=
  evs.filterMap evNegSize

/-- The walk list at the start of epoch `ep` of `fast_train` (`walksIter
sh w0 ep` is the list after `ep` reassignments by `shuffle_walks`). -/
def walksIter (shuffle : ℕ → List Walk → List Walk) (walks0 : List Walk) : ℕ → List Walk
  | 0 => walks0
  | ep + 1 => shuffle ep (walksIter shuffle walks0 ep)

/-- Modelled from the spec: the trace `fast_train` is claimed to produce —
`iterations` full epochs, each reshuffling the entire walk list and then
processing exactly `num_batches` batches, the learning-rate horizon being
`iterations * num_batches` throughout. -/
def ftSpecTrace (a : Args) (shuffle : ℕ → List Walk → List Walk)
    (walks0 : List Walk) (numB : ℕ) : List Event :=
  (List.range a.iterations).flatMap (fun ep =>
    Event.shuffle :: (List.range numB).map (fun k =>
      stepEv a (numPos a) (walksIter shuffle walks0 (ep + 1)) numB
        (a.iterations * numB) (ep * numB + k)))

/-- The local learning-rate horizon a `fast_train_sp` worker computes from
its own shard: `iterations * int(np.ceil(len(walks) / batch_size))`. -/
def spHorizon (a : Args) (walks : List Walk) : Except Err ℕ :=
  (pyCeilDiv walks.length a.batch_size).map (fun numB => a.iterations * numB)

/-- Exactly one of three booleans is set. -/
def exactlyOne (x y z : Bool) : Prop :=
  (x = true ∧ y = false ∧ z = false) ∨ (x = false ∧ y = true ∧ z = false)
    ∨ (x = false ∧ y = false ∧ z = true)

instance (x y z : Bool) : Decidable (exactlyOne x y z) := by
  unfold exactlyOne; infer_instance

/-- Learning rates are monotonically non-increasing along the list and
never drop below the floor `0.00001`. -/
def MonoFloorLRs (lrs : List ℚ) : Prop :=
  (∀ (k1 k2 : ℕ) (l1 l2 : ℚ), k1 ≤ k2 → lrs[k1]? = some l1 → lrs[k2]? = some l2 → l2 ≤ l1)
    ∧ ∀ l ∈ lrs, 1 / 100000 ≤ l

/-! ### Concrete configurations and traces used as witnesses -/

/-- A configuration passing `init_device_emb`: CPU-only with plain SGD,
all remaining options at their `argparse` defaults. -/
def okArgs : Args := { only_cpu := true, sgd := true }

/-- Three singleton walks. -/
def w1Walks : List Walk := [[0], [1], [2]]

def w1Args : Args := { okArgs with
  batch_size := 2, iterations := 2, num_walks := 1 }

/-- The trace `fast_train` produces on `w1Args` (two epochs of two
batches; horizon 4; learning rates 1/5, 3/20, 1/10, 1/20). -/
def w1FTEvs : List Event :=
  ftSpecTrace w1Args (fun _ l => l) w1Walks 2

/-- The trace `fast_train_sp` produces on `w1Args` (one pass of two
batches; horizon 4; learning rates 1/5, 3/20). -/
def w1SPEvs : List Event :=
  (List.range 2).map (fun k => stepEv w1Args (numPos w1Args) w1Walks 2 4 k)

/-- A configuration with `fast_neg` disabled: `num_pos = 2`, one negative
per positive pair, batches of two walks. -/
def c3Args : Args := { okArgs with
  batch_size := 2, iterations := 1, num_walks := 1, walk_length := 2,
  window_size := 1, negative := 1, fast_neg := false }

/-- The trace `fast_train_sp` produces on `c3Args` and `w1Walks`: the full
first batch draws 4 negatives, the short final batch only 2. -/
def c3Evs : List Event :=
  (List.range 2).map (fun k => stepEv c3Args (numPos c3Args) w1Walks 2 2 k)

/-- A two-process configuration with batches of two walks. -/
def c7Args : Args := { okArgs with
  num_procs := 2, batch_size := 2 }

/-- A configuration with `iterations = 0`. -/
def c8Args : Args := { okArgs with
  iterations := 0, batch_size := 1 }

/-! ### Basic facts about the arithmetic helpers -/

lemma nat_lt_div_succ_mul (a b : ℕ) (hb : 0 < b) : a < (a / b + 1) * b := by
  have h := Nat.div_add_mod a b
  have hm : a % b < b := Nat.mod_lt a hb
  have : (a / b + 1) * b = b * (a / b) + b := by ring
  omega

lemma pyCeilDiv_ok {x y n : ℕ} (h : pyCeilDiv x y = .ok n) :
    1 ≤ y ∧ n = (x + y - 1) / y := by
  unfold pyCeilDiv at h
  split at h
  · exact absurd h (by simp)
  · next hy =>
    refine ⟨Nat.one_le_iff_ne_zero.mpr hy, ?_⟩
    injection h with h2
    exact h2.symm

lemma pyCeilDiv_eq {x y : ℕ} (hy : 1 ≤ y) : pyCeilDiv x y = .ok ((x + y - 1) / y) := by
  unfold pyCeilDiv
  simp [Nat.one_le_iff_ne_zero.mp hy]

/-- The batch count `num_batches = ceil(x / y)` brackets `x`: `(n-1)*y < x ≤ n*y`. -/
lemma pyCeilDiv_bounds {x y n : ℕ} (h : pyCeilDiv x y = .ok n) (hx : 1 ≤ x) :
    (n - 1) * y < x ∧ x ≤ n * y := by
  obtain ⟨hy, hn⟩ := pyCeilDiv_ok h
  subst hn
  have hid := Nat.div_add_mod (x + y - 1) y
  have hr : (x + y - 1) % y < y := Nat.mod_lt _ hy
  have hm1 : ((x + y - 1) / y) * y = y * ((x + y - 1) / y) := by ring
  have hm2 : ((x + y - 1) / y - 1) * y = ((x + y - 1) / y) * y - y := by
    rw [Nat.sub_mul, one_mul]
  omega

lemma pyCeilDiv_zero_iff {x y n : ℕ} (h : pyCeilDiv x y = .ok n) : n = 0 ↔ x = 0 := by
  obtain ⟨hy, hn⟩ := pyCeilDiv_ok h
  subst hn
  constructor
  · intro h0
    by_contra hx
    have hb := (pyCeilDiv_bounds (pyCeilDiv_eq hy) (Nat.one_le_iff_ne_zero.mpr hx)).2
    rw [h0] at hb
    simp at hb
    omega
  · intro h0
    subst h0
    apply Nat.div_eq_of_lt
    omega

lemma decayLR_ok {lr0 : ℚ} {maxI i : ℕ} {v : ℚ} (h : decayLR lr0 maxI i = .ok v) :
    1 ≤ maxI ∧ v = decayVal lr0 maxI i := by
  unfold decayLR at h
  split at h
  · exact absurd h (by simp)
  · next hm =>
    refine ⟨Nat.one_le_iff_ne_zero.mpr hm, ?_⟩
    injection h with h2
    exact h2.symm

lemma decayLR_eq {lr0 : ℚ} {maxI : ℕ} (hm : 1 ≤ maxI) (i : ℕ) :
    decayLR lr0 maxI i = .ok (decayVal lr0 maxI i) := by
  unfold decayLR
  simp [Nat.one_le_iff_ne_zero.mp hm]

lemma batchAt_length (a : Args) (walks : List Walk) (numB i : ℕ) :
    (batchAt a walks numB i).length
      = min a.batch_size (walks.length - i % numB * a.batch_size) := by
  have hsub : (1 + i % numB) * a.batch_size - i % numB * a.batch_size = a.batch_size := by
    rw [Nat.add_mul, one_mul]; omega
  simp [batchAt, pySlice, hsub]

/-! ### The batch loop: general characterization of successful runs -/

/-- Any successful run of the batch loop emits exactly the step events of
consecutive counter values, advances the counter by the number of events,
and performs at most `numB - i % numB` steps (it stops after the batch at
index `numB - 1`). -/
lemma trainLoop_ok (a : Args) (nPos : ℤ) (walks : List Walk) (numB maxI : ℕ) :
    ∀ fuel i evs iEnd, trainLoop a nPos walks numB maxI fuel i = .ok (evs, iEnd) →
      1 ≤ maxI ∧ 1 ≤ numB
        ∧ evs = (List.range evs.length).map (fun k => stepEv a nPos walks numB maxI (i + k))
        ∧ iEnd = i + evs.length ∧ evs.length ≤ numB - i % numB := by
  intro fuel
  induction fuel with
  | zero =>
    intro i evs iEnd h
    exact absurd h (by simp [trainLoop])
  | succ fuel ih =>
    intro i evs iEnd h
    rw [trainLoop] at h
    cases hd : decayLR a.lr maxI i with
    | error e =>
      rw [hd] at h
      exact absurd h (by simp)
    | ok lr =>
      rw [hd] at h
      obtain ⟨hM, hlr⟩ := decayLR_ok hd
      simp only [] at h
      by_cases hB : numB = 0
      · rw [if_pos hB] at h
        exact absurd h (by simp)
      rw [if_neg hB] at h
      have hB1 : 1 ≤ numB := Nat.one_le_iff_ne_zero.mpr hB
      have hmod : i % numB < numB := Nat.mod_lt i hB1
      by_cases hE : (batchAt a walks numB i).length = 0
      · rw [if_pos hE] at h
        simp only [Except.ok.injEq, Prod.mk.injEq] at h
        obtain ⟨h1, h2⟩ := h
        subst h1; subst h2
        exact ⟨hM, hB1, by simp, by simp, by simp⟩
      rw [if_neg hE] at h
      by_cases hL : i % numB = numB - 1
      · rw [if_pos hL] at h
        simp only [Except.ok.injEq, Prod.mk.injEq] at h
        obtain ⟨h1, h2⟩ := h
        subst h1; subst h2
        refine ⟨hM, hB1, ?_, by simp, ?_⟩
        · subst hlr
          simp [stepEv, List.range_succ]
        · simp only [List.length_cons, List.length_nil]
          omega
      · rw [if_neg hL] at h
        cases hrec : trainLoop a nPos walks numB maxI fuel (i + 1) with
        | error e =>
          rw [hrec] at h
          exact absurd h (by simp)
        | ok p =>
          obtain ⟨evs', iEnd'⟩ := p
          rw [hrec] at h
          simp only [Except.ok.injEq, Prod.mk.injEq] at h
          obtain ⟨h1, h2⟩ := h
          subst h1; subst h2
          obtain ⟨_, _, hevs', hiEnd', hlen'⟩ := ih (i + 1) evs' iEnd' hrec
          have hms : (i + 1) % numB = i % numB + 1 := by
            have hlt : i % numB + 1 < numB := by omega
            rw [Nat.add_mod, Nat.mod_eq_of_lt (show 1 < numB by omega),
              Nat.mod_eq_of_lt hlt]
          refine ⟨hM, hB1, ?_, by simp [hiEnd']; omega, by simp; omega⟩
          conv_lhs => rw [hevs']
          simp only [List.length_cons, List.range_succ_eq_map, List.map_cons, List.map_map]
          congr 1
          · simp [stepEv, hlr]
          · apply List.map_congr_left
            intro k _
            simp only [Function.comp]
            congr 1
            omega

lemma map_range_succ_cons {α : Type} (f : ℕ → α) (m : ℕ) :
    (List.range (m + 1)).map f = f 0 :: (List.range m).map (fun k => f (k + 1)) := by
  rw [List.range_succ_eq_map, List.map_cons, List.map_map]
  rfl

/-- With enough fuel, a positive horizon, and a walk list long enough for
`numB = ceil(len / batch_size)` batches, the batch loop runs to the break
at batch index `numB - 1`, emitting exactly `numB - i % numB` events. -/
lemma trainLoop_run (a : Args) (nPos : ℤ) (walks : List Walk) (numB maxI : ℕ)
    (hM : 1 ≤ maxI) (hB : 1 ≤ numB) (hbs : 1 ≤ a.batch_size)
    (hlen : (numB - 1) * a.batch_size < walks.length) :
    ∀ fuel i, numB - i % numB ≤ fuel →
      trainLoop a nPos walks numB maxI fuel i
        = .ok ((List.range (numB - i % numB)).map
            (fun k => stepEv a nPos walks numB maxI (i + k)), i + (numB - i % numB)) := by
  intro fuel
  induction fuel with
  | zero =>
    intro i hf
    have := Nat.mod_lt i hB
    omega
  | succ fuel ih =>
    intro i hf
    have hmod : i % numB < numB := Nat.mod_lt i hB
    rw [trainLoop, decayLR_eq hM]
    simp only []
    rw [if_neg (by omega : ¬ numB = 0)]
    have hbatch : ¬ (batchAt a walks numB i).length = 0 := by
      rw [batchAt_length]
      have h1 : i % numB * a.batch_size ≤ (numB - 1) * a.batch_size :=
        Nat.mul_le_mul_right _ (by omega)
      have h2 : i % numB * a.batch_size < walks.length := lt_of_le_of_lt h1 hlen
      omega
    rw [if_neg hbatch]
    by_cases hL : i % numB = numB - 1
    · rw [if_pos hL]
      have h1 : numB - i % numB = 1 := by omega
      rw [h1]
      simp [stepEv, List.range_succ]
    · rw [if_neg hL]
      have hms : (i + 1) % numB = i % numB + 1 := by
        have hlt : i % numB + 1 < numB := by omega
        rw [Nat.add_mod, Nat.mod_eq_of_lt (show 1 < numB by omega), Nat.mod_eq_of_lt hlt]
      have hfuel2 : numB - (i + 1) % numB ≤ fuel := by rw [hms]; omega
      rw [ih (i + 1) hfuel2]
      simp only [Except.ok.injEq, Prod.mk.injEq]
      obtain ⟨m, hm⟩ : ∃ m, numB - i % numB = m + 1 := ⟨numB - i % numB - 1, by omega⟩
      have hm2 : numB - (i + 1) % numB = m := by omega
      rw [hm, hm2]
      refine ⟨?_, by omega⟩
      rw [map_range_succ_cons]
      simp only [List.cons.injEq]
      refine ⟨by simp [stepEv], ?_⟩
      apply List.map_congr_left
      intro k _
      have he : i + 1 + k = i + (k + 1) := by omega
      rw [he]

/-! ### Extracting learning rates and negative-sample counts from traces -/

lemma evLR_mkLearn (a : Args) (nPos : ℤ) (b : List Walk) (lr : ℚ) :
    evLR (mkLearn a nPos b lr) = some lr := by
  unfold mkLearn
  by_cases h : a.fast_neg <;> simp [h, evLR]

lemma learnLRs_cons_shuffle (evs : List Event) :
    learnLRs (Event.shuffle :: evs) = learnLRs evs := by
  simp [learnLRs, evLR]

lemma learnLRs_append (l1 l2 : List Event) :
    learnLRs (l1 ++ l2) = learnLRs l1 ++ learnLRs l2 := by
  simp [learnLRs]

lemma learnLRs_stepEv_map (a : Args) (nPos : ℤ) (walks : List Walk) (numB maxI n : ℕ)
    (f : ℕ → ℕ) :
    learnLRs ((List.range n).map (fun k => stepEv a nPos walks numB maxI (f k)))
      = (List.range n).map (fun k => decayVal a.lr maxI (f k)) := by
  induction n with
  | zero => simp [learnLRs]
  | succ n ih =>
    rw [List.range_succ, List.map_append, List.map_append, learnLRs_append, ih]
    simp [learnLRs, stepEv, evLR_mkLearn]

lemma map_decay_append (d : ℕ → ℚ) (i n1 n2 : ℕ) :
    (List.range n1).map (fun k => d (i + k))
        ++ (List.range n2).map (fun k => d (i + n1 + k))
      = (List.range (n1 + n2)).map (fun k => d (i + k)) := by
  rw [List.range_add, List.map_append, List.map_map]
  congr 1
  apply List.map_congr_left
  intro k _
  simp only [Function.comp]
  congr 1
  omega

/-! ### The epoch loop of `fast_train` -/

/-- Any successful run of the epoch loop passes the learning rates
`decayVal lr maxI (i + 0), decayVal lr maxI (i + 1), ...` to its
successive learn calls, performs at most `iters * numB` of them, and
every event is either a shuffle or a `fast_learn_super` call. -/
lemma epochsLoop_ok (a : Args) (shuffle : ℕ → List Walk → List Walk) (nPos : ℤ)
    (numB maxI fuel : ℕ) :
    ∀ iters ep walks i evs,
      epochsLoop a shuffle nPos numB maxI fuel iters ep walks i = .ok evs →
        learnLRs evs = (List.range (learnLRs evs).length).map
            (fun k => decayVal a.lr maxI (i + k))
          ∧ (learnLRs evs).length ≤ iters * numB
          ∧ ∀ ev ∈ evs, ev = Event.shuffle ∨ ∃ b lr, ev = mkLearn a nPos b lr := by
  intro iters
  induction iters with
  | zero =>
    intro ep walks i evs h
    rw [epochsLoop] at h
    simp only [Except.ok.injEq] at h
    subst h
    simp [learnLRs]
  | succ iters ih =>
    intro ep walks i evs h
    rw [epochsLoop] at h
    cases h1 : trainLoop a nPos (shuffle ep walks) numB maxI fuel i with
    | error e => rw [h1] at h; exact absurd h (by simp)
    | ok p =>
      obtain ⟨evs1, iEnd⟩ := p
      rw [h1] at h
      dsimp only [] at h
      cases h2 : epochsLoop a shuffle nPos numB maxI fuel iters (ep + 1) (shuffle ep walks) iEnd with
      | error e => rw [h2] at h; exact absurd h (by simp)
      | ok rest =>
        rw [h2] at h
        simp only [Except.ok.injEq] at h
        subst h
        obtain ⟨hM1, hB1, hevs1, hiEnd, hcnt1⟩ :=
          trainLoop_ok a nPos (shuffle ep walks) numB maxI fuel i evs1 iEnd h1
        obtain ⟨ihL, ihC, ihS⟩ := ih (ep + 1) (shuffle ep walks) iEnd rest h2
        have hL1 : learnLRs evs1 = (List.range evs1.length).map
            (fun k => decayVal a.lr maxI (i + k)) := by
          conv_lhs => rw [hevs1]
          rw [learnLRs_stepEv_map]
        have hn1 : (learnLRs evs1).length = evs1.length := by
          rw [hL1]; simp
        subst hiEnd
        have hall : learnLRs (Event.shuffle :: evs1 ++ rest)
            = (List.range (evs1.length + (learnLRs rest).length)).map
                (fun k => decayVal a.lr maxI (i + k)) := by
          rw [learnLRs_append, learnLRs_cons_shuffle, hL1, ihL]
          simp only [List.length_map, List.length_range]
          exact map_decay_append _ _ _ _
        have hlenall : (learnLRs (Event.shuffle :: evs1 ++ rest)).length
            = evs1.length + (learnLRs rest).length := by
          rw [hall]; simp
        refine ⟨?_, ?_, ?_⟩
        · rw [hlenall, hall]
        · rw [hlenall]
          have hsm : (iters + 1) * numB = iters * numB + numB := by ring
          omega
        · intro ev hev
          rw [List.mem_append] at hev
          rcases hev with hev | hev
          · rw [List.mem_cons] at hev
            rcases hev with hev | hev
            · exact Or.inl hev
            · right
              rw [hevs1] at hev
              simp only [List.mem_map, List.mem_range] at hev
              obtain ⟨k, _, hk⟩ := hev
              exact ⟨batchAt a (shuffle ep walks) numB (i + k),
                decayVal a.lr maxI (i + k), hk.symm⟩
          · exact ihS ev hev

/-- Length is preserved along the iterated shuffles. -/
lemma walksIter_length (shuffle : ℕ → List Walk → List Walk) (walks0 : List Walk)
    (hsh : ∀ ep l, (shuffle ep l).length = l.length) :
    ∀ ep, (walksIter shuffle walks0 ep).length = walks0.length := by
  intro ep
  induction ep with
  | zero => rfl
  | succ ep ih => rw [walksIter, hsh, ih]

lemma flatMap_congr_left {α β : Type} (l : List α) (f g : α → List β)
    (h : ∀ x ∈ l, f x = g x) : l.flatMap f = l.flatMap g := by
  induction l with
  | nil => rfl
  | cons x xs ih =>
    rw [List.flatMap_cons, List.flatMap_cons, h x (by simp),
      ih (fun y hy => h y (by simp [hy]))]

lemma flatMap_range_succ {α : Type} (f : ℕ → List α) (n : ℕ) :
    (List.range (n + 1)).flatMap f
      = f 0 ++ (List.range n).flatMap (fun e => f (e + 1)) := by
  rw [List.range_succ_eq_map, List.flatMap_cons]
  congr 1
  rw [List.flatMap_map]

/-- Closed form of the epoch loop: starting epoch `ep` with counter
`ep * numB` and the `ep`-times-shuffled walks, it performs the remaining
`iters` epochs, each a reshuffle followed by exactly `numB` batches. -/
lemma epochsLoop_run (a : Args) (shuffle : ℕ → List Walk → List Walk) (nPos : ℤ)
    (numB maxI fuel : ℕ) (walks0 : List Walk)
    (hM : 1 ≤ maxI) (hB : 1 ≤ numB) (hbs : 1 ≤ a.batch_size)
    (hlen : (numB - 1) * a.batch_size < walks0.length)
    (hsh : ∀ ep l, (shuffle ep l).length = l.length)
    (hfuel : numB ≤ fuel) :
    ∀ iters ep,
      epochsLoop a shuffle nPos numB maxI fuel iters ep
          (walksIter shuffle walks0 ep) (ep * numB)
        = .ok ((List.range iters).flatMap (fun e =>
            Event.shuffle :: (List.range numB).map (fun k =>
              stepEv a nPos (walksIter shuffle walks0 (ep + e + 1)) numB maxI
                ((ep + e) * numB + k)))) := by
  intro iters
  induction iters with
  | zero => intro ep; rw [epochsLoop]; simp
  | succ iters ih =>
    intro ep
    have hw : shuffle ep (walksIter shuffle walks0 ep) = walksIter shuffle walks0 (ep + 1) := rfl
    have hmod : (ep * numB) % numB = 0 := Nat.mul_mod_left ep numB
    have hrun := trainLoop_run a nPos (walksIter shuffle walks0 (ep + 1)) numB maxI hM hB hbs
      (by rw [walksIter_length shuffle walks0 hsh]; exact hlen) fuel (ep * numB)
      (by rw [hmod]; omega)
    rw [hmod, Nat.sub_zero] at hrun
    have hiEnd : ep * numB + numB = (ep + 1) * numB := by ring
    rw [hiEnd] at hrun
    have hrec := ih (ep + 1)
    rw [epochsLoop]
    rw [hw, hrun]
    simp only [hrec, Except.ok.injEq]
    rw [flatMap_range_succ]
    simp only [Nat.add_zero, List.cons_append]
    congr 1
    congr 1
    apply flatMap_congr_left
    intro e _
    have he : ep + 1 + e = ep + (e + 1) := by omega
    simp only [he]

/-! ### Top-level characterizations of `fast_train_sp` and `fast_train` -/

/-- Any successful `fast_train_sp` run: the batch count came from
`ceil(len(walks) / batch_size)`, the horizon `iterations * num_batches`
is positive, and the trace consists of the step events for counters
`0, 1, ...`, at most `num_batches` of them. -/
lemma fastTrainSP_ok {a : Args} {walks : List Walk} {fuel : ℕ} {evs : List Event}
    (h : fastTrainSP a walks fuel = .ok evs) :
    ∃ numB, pyCeilDiv walks.length a.batch_size = .ok numB
      ∧ 1 ≤ a.iterations * numB ∧ 1 ≤ numB
      ∧ evs = (List.range evs.length).map
          (fun k => stepEv a (numPos a) walks numB (a.iterations * numB) k)
      ∧ evs.length ≤ numB := by
  unfold fastTrainSP at h
  cases h1 : pyCeilDiv walks.length a.batch_size with
  | error e => rw [h1] at h; exact absurd h (by simp)
  | ok numB =>
    rw [h1] at h
    dsimp only [] at h
    cases h2 : trainLoop a (numPos a) walks numB (a.iterations * numB) fuel 0 with
    | error e => rw [h2] at h; exact absurd h (by simp)
    | ok p =>
      obtain ⟨evs1, iEnd⟩ := p
      rw [h2] at h
      simp only [Except.ok.injEq] at h
      subst h
      obtain ⟨hM, hB, hevs, _, hlen⟩ :=
        trainLoop_ok a (numPos a) walks numB (a.iterations * numB) fuel 0 evs1 iEnd h2
      refine ⟨numB, rfl, hM, hB, ?_, ?_⟩
      · conv_lhs => rw [hevs]
        apply List.map_congr_left
        intro k _
        rw [Nat.zero_add]
      · rw [Nat.zero_mod, Nat.sub_zero] at hlen
        exact hlen

/-- Closed form of `fast_train_sp` on a non-empty shard with at least one
iteration: exactly `num_batches` learn steps, one pass over the shard. -/
lemma fastTrainSP_run (a : Args) (walks : List Walk) (fuel numB : ℕ)
    (hceil : pyCeilDiv walks.length a.batch_size = .ok numB)
    (hlen : 1 ≤ walks.length) (hit : 1 ≤ a.iterations) (hfuel : numB ≤ fuel) :
    fastTrainSP a walks fuel
      = .ok ((List.range numB).map (fun k =>
          stepEv a (numPos a) walks numB (a.iterations * numB) k)) := by
  obtain ⟨hbs, _⟩ := pyCeilDiv_ok hceil
  have hB : 1 ≤ numB := by
    rcases Nat.eq_zero_or_pos numB with h0 | h1
    · have := (pyCeilDiv_zero_iff hceil).mp h0
      omega
    · exact h1
  have hM : 1 ≤ a.iterations * numB := Nat.mul_pos hit hB
  have hlen2 : (numB - 1) * a.batch_size < walks.length := (pyCeilDiv_bounds hceil hlen).1
  unfold fastTrainSP
  rw [hceil]
  dsimp only []
  have hrun := trainLoop_run a (numPos a) walks numB (a.iterations * numB) hM hB hbs hlen2
    fuel 0 (by rw [Nat.zero_mod, Nat.sub_zero]; exact hfuel)
  rw [Nat.zero_mod, Nat.sub_zero] at hrun
  rw [hrun]
  dsimp only []
  simp only [Nat.zero_add]

/-- Any successful `fast_train` run: the checks passed, and the learning
rates of the successive learn calls follow the decay schedule with
horizon `iterations * num_batches` from step `0`, with at most
`iterations * num_batches` learn calls in total. -/
lemma fastTrain_ok {a : Args} {embSize : ℕ} {shuffle : ℕ → List Walk → List Walk}
    {walks0 : List Walk} {fuel : ℕ} {evs : List Event}
    (h : fastTrain a embSize shuffle walks0 fuel = .ok evs) :
    ∃ numB, pyCeilDiv (embSize * a.num_walks) a.batch_size = .ok numB
      ∧ initDeviceEmb a = .ok ()
      ∧ learnLRs evs = (List.range (learnLRs evs).length).map
          (fun k => decayVal a.lr (a.iterations * numB) k)
      ∧ (learnLRs evs).length ≤ a.iterations * numB
      ∧ ∀ ev ∈ evs, ev = Event.shuffle ∨ ∃ b lr, ev = mkLearn a (numPos a) b lr := by
  unfold fastTrain at h
  cases h1 : pyCeilDiv (embSize * a.num_walks) a.batch_size with
  | error e => rw [h1] at h; exact absurd h (by simp)
  | ok numB =>
    rw [h1] at h
    dsimp only [] at h
    cases h2 : initDeviceEmb a with
    | error e => rw [h2] at h; exact absurd h (by simp)
    | ok u =>
      cases u
      rw [h2] at h
      dsimp only [] at h
      obtain ⟨hL, hC, hS⟩ := epochsLoop_ok a shuffle (numPos a) numB
        (a.iterations * numB) fuel a.iterations 0 walks0 0 evs h
      refine ⟨numB, rfl, rfl, ?_, hC, hS⟩
      conv_lhs => rw [hL]
      apply List.map_congr_left
      intro k _
      rw [Nat.zero_add]

/-- Closed form of `fast_train`: with valid configuration, a walk list of
the expected length, and a length-preserving shuffle, the trace is the
spec-shaped epoch trace. -/
lemma fastTrain_run (a : Args) (embSize : ℕ) (shuffle : ℕ → List Walk → List Walk)
    (walks0 : List Walk) (fuel numB : ℕ)
    (hceil : pyCeilDiv (embSize * a.num_walks) a.batch_size = .ok numB)
    (hinit : initDeviceEmb a = .ok ())
    (hwalks : walks0.length = embSize * a.num_walks)
    (hB : 1 ≤ numB)
    (hsh : ∀ ep l, (shuffle ep l).length = l.length)
    (hfuel : numB ≤ fuel) :
    fastTrain a embSize shuffle walks0 fuel = .ok (ftSpecTrace a shuffle walks0 numB) := by
  obtain ⟨hbs, _⟩ := pyCeilDiv_ok hceil
  unfold fastTrain
  rw [hceil, hinit]
  dsimp only []
  by_cases hit : a.iterations = 0
  · rw [hit]
    rw [epochsLoop]
    unfold ftSpecTrace
    rw [hit]
    simp
  · have hit1 : 1 ≤ a.iterations := Nat.one_le_iff_ne_zero.mpr hit
    have hM : 1 ≤ a.iterations * numB := Nat.mul_pos hit1 hB
    have hlen0 : 1 ≤ embSize * a.num_walks := by
      rcases Nat.eq_zero_or_pos (embSize * a.num_walks) with h0 | h1
      · have := (pyCeilDiv_zero_iff hceil).mpr h0
        omega
      · exact h1
    have hlen2 : (numB - 1) * a.batch_size < walks0.length := by
      rw [hwalks]
      exact (pyCeilDiv_bounds hceil hlen0).1
    have hrun := epochsLoop_run a shuffle (numPos a) numB (a.iterations * numB) fuel walks0
      hM hB hbs hlen2 hsh hfuel a.iterations 0
    simp only [Nat.zero_mul, Nat.zero_add, walksIter] at hrun
    rw [hrun]
    rfl

/-! ### Facts about the decayed learning rate -/

lemma decayVal_floor (lr0 : ℚ) (maxI i : ℕ) : 1 / 100000 ≤ decayVal lr0 maxI i := by
  unfold decayVal
  dsimp only
  split
  · exact le_refl _
  · next h => exact le_of_not_lt h

lemma decayVal_antitone (lr0 : ℚ) (maxI : ℕ) {i j : ℕ} (hij : i ≤ j) (hj : j < maxI) :
    decayVal lr0 maxI j ≤ decayVal lr0 maxI i := by
  have hM : (0 : ℚ) < (maxI : ℚ) := by
    exact_mod_cast Nat.lt_of_le_of_lt (Nat.zero_le j) hj
  have hji : ((maxI : ℚ) - (j : ℚ)) ≤ ((maxI : ℚ) - (i : ℚ)) := by
    have : (i : ℚ) ≤ (j : ℚ) := by exact_mod_cast hij
    linarith
  rcases le_or_lt 0 lr0 with hpos | hneg
  · have hraw : lr0 * ((maxI : ℚ) - (j : ℚ)) / (maxI : ℚ)
        ≤ lr0 * ((maxI : ℚ) - (i : ℚ)) / (maxI : ℚ) := by
      exact (div_le_div_iff_of_pos_right hM).mpr (mul_le_mul_of_nonneg_left hji hpos)
    unfold decayVal
    dsimp only
    split_ifs <;> linarith
  · have hjq : (j : ℚ) < (maxI : ℚ) := by exact_mod_cast hj
    have hjpos : (0 : ℚ) < (maxI : ℚ) - (j : ℚ) := by linarith
    have hipos : (0 : ℚ) < (maxI : ℚ) - (i : ℚ) := by linarith
    have hrj : lr0 * ((maxI : ℚ) - (j : ℚ)) / (maxI : ℚ) < 0 :=
      div_neg_of_neg_of_pos (mul_neg_of_neg_of_pos hneg hjpos) hM
    have hri : lr0 * ((maxI : ℚ) - (i : ℚ)) / (maxI : ℚ) < 0 :=
      div_neg_of_neg_of_pos (mul_neg_of_neg_of_pos hneg hipos) hM
    have heps : (0 : ℚ) < 1 / 100000 := by norm_num
    unfold decayVal
    dsimp only
    split_ifs <;> linarith

/-! ### Facts about the negative-sampling branch of a learn call -/

lemma mkLearn_inv_fast {a : Args} (hfn : a.fast_neg = true) {nPos : ℤ}
    {b batch : List Walk} {lr lrv : ℚ} {ns : Option ℤ}
    (h : Event.learn b lr ns = mkLearn a nPos batch lrv) : ns = none := by
  unfold mkLearn at h
  rw [hfn] at h
  simp only [if_true, Event.learn.injEq] at h
  exact h.2.2

lemma mkLearn_inv_slow {a : Args} (hfn : a.fast_neg = false) {nPos : ℤ}
    {b batch : List Walk} {lr lrv : ℚ} {ns : Option ℤ}
    (h : Event.learn b lr ns = mkLearn a nPos batch lrv) :
    ns = some ((b.length : ℤ) * nPos * (a.negative : ℤ)) := by
  unfold mkLearn at h
  rw [hfn] at h
  simp only [Bool.false_eq_true, if_false, Event.learn.injEq] at h
  obtain ⟨hb, _, hns⟩ := h
  rw [hb]
  exact hns

/-! ### Shard arithmetic of `fast_train_mp` -/

lemma shardStart_mono (P L : ℕ) {i j : ℕ} (hij : i ≤ j) :
    shardStart P L i ≤ shardStart P L j :=
  Nat.div_le_div_right (Nat.mul_le_mul_right L hij)

lemma shardStart_zero (P L : ℕ) : shardStart P L 0 = 0 := by
  unfold shardStart
  simp

lemma shardStart_last (P L : ℕ) (hP : 0 < P) : shardStart P L P = L := by
  unfold shardStart
  exact Nat.mul_div_cancel_left L hP

lemma mpShard_initial_take (P : ℕ) (walks : List Walk) :
    ∀ k, (List.range k).flatMap (mpShard P walks)
      = walks.take (shardStart P walks.length k) := by
  intro k
  induction k with
  | zero => simp [shardStart_zero]
  | succ k ih =>
    rw [List.range_succ, List.flatMap_append, ih]
    simp only [List.flatMap_cons, List.flatMap_nil, List.append_nil]
    unfold mpShard pySlice
    have hmono : shardStart P walks.length k ≤ shardStart P walks.length (k + 1) :=
      shardStart_mono P walks.length (by omega)
    rw [← List.take_add]
    congr 1
    omega

/-- The `num_procs` shards of `fast_train_mp` concatenate back to the full
walk list: a disjoint, order-preserving cover. -/
lemma mpShard_cover (P : ℕ) (walks : List Walk) (hP : 1 ≤ P) :
    (List.range P).flatMap (mpShard P walks) = walks := by
  rw [mpShard_initial_take P walks P, shardStart_last P walks.length hP, List.take_length]

/-- Every walk index `j < L` lies in exactly one of the `P` shard index
ranges `[int(i*L/P), int((i+1)*L/P))`. -/
lemma shard_index_exists_unique (P L j : ℕ) (hP : 1 ≤ P) (hj : j < L) :
    ∃! i, i < P ∧ shardStart P L i ≤ j ∧ j < shardStart P L (i + 1) := by
  have hL : 1 ≤ L := by omega
  have h1 : ∀ i : ℕ, (shardStart P L i ≤ j ↔ i * L < (j + 1) * P) := by
    intro i
    unfold shardStart
    constructor
    · intro h
      exact (Nat.div_lt_iff_lt_mul hP).mp (Nat.lt_succ_of_le h)
    · intro h
      exact Nat.lt_succ_iff.mp ((Nat.div_lt_iff_lt_mul hP).mpr h)
  have h2 : ∀ i : ℕ, (j < shardStart P L (i + 1) ↔ (j + 1) * P ≤ (i + 1) * L) := by
    intro i
    unfold shardStart
    constructor
    · intro h
      exact (Nat.le_div_iff_mul_le hP).mp (Nat.succ_le_of_lt h)
    · intro h
      exact Nat.lt_of_succ_le ((Nat.le_div_iff_mul_le hP).mpr h)
  have hc1 : 1 ≤ (j + 1) * P := Nat.mul_pos (by omega) hP
  refine ⟨((j + 1) * P - 1) / L, ⟨?_, ?_, ?_⟩, ?_⟩
  · have hcle : (j + 1) * P ≤ L * P := Nat.mul_le_mul_right P (by omega)
    have hmono : ((j + 1) * P - 1) / L ≤ (L * P - 1) / L := Nat.div_le_div_right (by omega)
    have hlp : (L * P - 1) / L < P := by
      rw [Nat.div_lt_iff_lt_mul hL]
      have hcomm : L * P = P * L := Nat.mul_comm L P
      omega
    omega
  · rw [h1]
    have := Nat.div_mul_le_self ((j + 1) * P - 1) L
    omega
  · rw [h2]
    have := nat_lt_div_succ_mul ((j + 1) * P - 1) L hL
    omega
  · intro y hy
    obtain ⟨hyP, hy1, hy2⟩ := hy
    rw [h1] at hy1
    rw [h2] at hy2
    have hy1' : y * L ≤ (j + 1) * P - 1 := by omega
    have hy2' : (j + 1) * P - 1 < (y + 1) * L := by omega
    exact (Nat.div_eq_of_lt_le hy1' hy2').symm

/-! ### Remaining shared lemmas for the claims -/

lemma bsum_mode_iff (a : Args) :
    bsum [a.only_gpu, a.only_cpu, a.mix] = 1 ↔ exactlyOne a.only_cpu a.only_gpu a.mix := by
  cases h1 : a.only_gpu <;> cases h2 : a.only_cpu <;> cases h3 : a.mix <;>
    simp [bsum, exactlyOne]

lemma bsum_opt_iff (a : Args) :
    bsum [a.sgd, a.adam, a.avg_sgd] = 1 ↔ exactlyOne a.sgd a.adam a.avg_sgd := by
  cases h1 : a.sgd <;> cases h2 : a.adam <;> cases h3 : a.avg_sgd <;>
    simp [bsum, exactlyOne]

/-- A successful `fast_train_sp` run passes exactly the decay-schedule
learning rates with horizon `iterations * numB`, `numB` taken from the
shard's own length, and makes at most `numB` learn calls. -/
lemma fastTrainSP_lrs {a : Args} {walks : List Walk} {fuel numB : ℕ} {evs : List Event}
    (hceil : pyCeilDiv walks.length a.batch_size = .ok numB)
    (h : fastTrainSP a walks fuel = .ok evs) :
    learnLRs evs = (List.range (learnLRs evs).length).map
        (fun k => decayVal a.lr (a.iterations * numB) k)
      ∧ (learnLRs evs).length ≤ numB ∧ 1 ≤ a.iterations * numB ∧ 1 ≤ numB := by
  obtain ⟨numB', hceil', hM, hB, hevs, hcnt⟩ := fastTrainSP_ok h
  have hnn : numB' = numB := by
    rw [hceil] at hceil'
    injection hceil' with h2
    exact h2.symm
  subst hnn
  have hL2 : learnLRs evs = (List.range evs.length).map
      (fun k => decayVal a.lr (a.iterations * numB') k) := by
    conv_lhs => rw [hevs]
    rw [learnLRs_stepEv_map]
  have hlen2 : (learnLRs evs).length = evs.length := by
    rw [hL2]
    simp
  refine ⟨?_, ?_, hM, hB⟩
  · rw [hlen2]
    exact hL2
  · rw [hlen2]
    exact hcnt

/-- The monotonicity-and-floor property holds for any prefix of the decay
schedule that stays within the horizon. -/
lemma monoFloor_map_decay (lr0 : ℚ) (maxI n : ℕ) (hn : n ≤ maxI) :
    MonoFloorLRs ((List.range n).map (fun k => decayVal lr0 maxI k)) := by
  constructor
  · intro k1 k2 l1 l2 hk h1 h2
    have hk2 : k2 < n := by
      by_contra hc
      rw [List.getElem?_map, List.getElem?_eq_none (by simpa using Nat.le_of_not_lt hc)] at h2
      simp at h2
    have hk1 : k1 < n := Nat.lt_of_le_of_lt hk hk2
    rw [List.getElem?_map, List.getElem?_range hk1] at h1
    rw [List.getElem?_map, List.getElem?_range hk2] at h2
    simp only [Option.map_some'] at h1 h2
    injection h1 with h1
    injection h2 with h2
    rw [← h1, ← h2]
    exact decayVal_antitone lr0 maxI hk (Nat.lt_of_lt_of_le hk2 hn)
  · intro l hl
    rw [List.mem_map] at hl
    obtain ⟨k, _, hk⟩ := hl
    rw [← hk]
    exact decayVal_floor lr0 maxI k

/-! ### The claims -/

/-- Claim C1: for every training step `i` with step horizon
`max_steps = iterations * num_batches` (`num_batches > 0` since
`pyCeilDiv` succeeded), the learning rate passed to the `i`-th learn call
equals `initial_lr * (max_steps - i) / max_steps`, except that a value
below `1e-5` is replaced by exactly `1e-5` (this is `decayVal`); the full
list of rates passed is exactly this schedule and nothing else, in both
`fast_train` and `fast_train_sp`. -/
theorem lr_schedule_linear_decay :
    ∀ (a : Args) (embSize : ℕ) (shuffle : ℕ → List Walk → List Walk)
      (walks0 walks : List Walk) (fuel fuel2 numB numB2 : ℕ)
      (evs evs2 : List Event),
      (pyCeilDiv (embSize * a.num_walks) a.batch_size = .ok numB →
        fastTrain a embSize shuffle walks0 fuel = .ok evs →
        learnLRs evs = (List.range (learnLRs evs).length).map
          (fun i => decayVal a.lr (a.iterations * numB) i))
      ∧ (pyCeilDiv walks.length a.batch_size = .ok numB2 →
        fastTrainSP a walks fuel2 = .ok evs2 →
        learnLRs evs2 = (List.range (learnLRs evs2).length).map
          (fun i => decayVal a.lr (a.iterations * numB2) i)) := by
  intro a embSize shuffle walks0 walks fuel fuel2 numB numB2 evs evs2
  constructor
  · intro hceil h
    obtain ⟨numB', hceil', _, hL, _, _⟩ := fastTrain_ok h
    have hnn : numB' = numB := by
      rw [hceil] at hceil'
      injection hceil' with h2
      exact h2.symm
    subst hnn
    exact hL
  · intro hceil h
    exact (fastTrainSP_lrs hceil h).1

/-- Witness for C1 on the two-epoch, two-batch configuration. -/
theorem lr_schedule_linear_decay_witness :
    learnLRs w1FTEvs = (List.range (learnLRs w1FTEvs).length).map
        (fun i => decayVal w1Args.lr (w1Args.iterations * 2) i)
      ∧ learnLRs w1SPEvs = (List.range (learnLRs w1SPEvs).length).map
        (fun i => decayVal w1Args.lr (w1Args.iterations * 2) i) :=
  ⟨(lr_schedule_linear_decay w1Args 3 (fun _ l => l) w1Walks w1Walks 2 4 2 2
      w1FTEvs w1SPEvs).1 rfl rfl,
   (lr_schedule_linear_decay w1Args 3 (fun _ l => l) w1Walks w1Walks 2 4 2 2
      w1FTEvs w1SPEvs).2 rfl rfl⟩

/-- Claim C2: the `num_procs` shards `walks[int(i*L/P) : int((i+1)*L/P)]`
form a disjoint cover of the walk list: their concatenation in order is
the whole list, and every index `j < L` lies in exactly one shard range,
for every list and every `P ≥ 1`. -/
theorem mpShard_disjoint_cover :
    ∀ (walks : List Walk) (P : ℕ), 1 ≤ P →
      (List.range P).flatMap (mpShard P walks) = walks
        ∧ ∀ j < walks.length,
            ∃! i, i < P ∧ shardStart P walks.length i ≤ j
              ∧ j < shardStart P walks.length (i + 1) := by
  intro walks P hP
  exact ⟨mpShard_cover P walks hP,
    fun j hj => shard_index_exists_unique P walks.length j hP hj⟩

/-- Witness for C2 with three walks over two shards, index `j = 1`. -/
theorem mpShard_disjoint_cover_witness :
    (List.range 2).flatMap (mpShard 2 w1Walks) = w1Walks
      ∧ ∃! i, i < 2 ∧ shardStart 2 w1Walks.length i ≤ 1
          ∧ 1 < shardStart 2 w1Walks.length (i + 1) :=
  ⟨(mpShard_disjoint_cover w1Walks 2 (by decide)).1,
   (mpShard_disjoint_cover w1Walks 2 (by decide)).2 1 (by decide)⟩

/-- Claim C3 counterexample: with `fast_neg` disabled, `batch_size = 2`,
`negative = 1` and `num_pos = 2`, a shard of three walks draws `4`
negatives for the full first batch but only `2` for the final
single-walk batch — not `batch_size * num_pos * negative = 4` as the
claim asserts for every batch including the final one. -/
theorem negsample_final_batch_counterexample :
    (fastTrainSP c3Args w1Walks 4).map negSizes = .ok [some 4, some 2]
      ∧ (c3Args.batch_size : ℤ) * numPos c3Args * (c3Args.negative : ℤ) = 4
      ∧ ¬ ((2 : ℤ) = (c3Args.batch_size : ℤ) * numPos c3Args * (c3Args.negative : ℤ)) :=
  ⟨rfl, by decide, by decide⟩

/-- Claim C3 (amended): with `fast_neg` disabled, every learn call passes
exactly `len(batch) * num_pos * negative` negative indices, where
`len(batch)` is the actual number of walks in the batch; that number
equals the configured `batch_size` for every batch index except the last
of a pass (`numB - 1`), whose batch has the `L - (numB-1) * batch_size`
remaining walks.  This holds in `fast_train_sp` and `fast_train`. -/
theorem negsample_count_amended :
    ∀ a : Args, a.fast_neg = false →
      (∀ (walks : List Walk) (fuel : ℕ) (evs : List Event),
        fastTrainSP a walks fuel = .ok evs →
        ∀ (b : List Walk) (lr : ℚ) (ns : Option ℤ), Event.learn b lr ns ∈ evs →
          ns = some ((b.length : ℤ) * numPos a * (a.negative : ℤ)))
      ∧ (∀ (embSize : ℕ) (shuffle : ℕ → List Walk → List Walk)
          (walks0 : List Walk) (fuel : ℕ) (evs : List Event),
          fastTrain a embSize shuffle walks0 fuel = .ok evs →
          ∀ (b : List Walk) (lr : ℚ) (ns : Option ℤ), Event.learn b lr ns ∈ evs →
            ns = some ((b.length : ℤ) * numPos a * (a.negative : ℤ)))
      ∧ (∀ (walks : List Walk) (numB : ℕ),
          pyCeilDiv walks.length a.batch_size = .ok numB →
          ∀ k, k < numB →
            (batchAt a walks numB k).length
              = if k = numB - 1 then walks.length - (numB - 1) * a.batch_size
                else a.batch_size) := by
  intro a hfn
  refine ⟨?_, ?_, ?_⟩
  · intro walks fuel evs h b lr ns hmem
    obtain ⟨numB', _, _, _, hevs, _⟩ := fastTrainSP_ok h
    rw [hevs, List.mem_map] at hmem
    obtain ⟨k, _, hk⟩ := hmem
    exact mkLearn_inv_slow hfn hk.symm
  · intro embSize shuffle walks0 fuel evs h b lr ns hmem
    obtain ⟨numB', _, _, _, _, hS⟩ := fastTrain_ok h
    rcases hS _ hmem with hsh | ⟨batch, lrv, heq⟩
    · exact absurd hsh (by simp)
    · exact mkLearn_inv_slow hfn heq
  · intro walks numB hceil k hk
    have hB : 1 ≤ numB := by omega
    have hlen1 : 1 ≤ walks.length := by
      rcases Nat.eq_zero_or_pos walks.length with h0 | h1
      · have := (pyCeilDiv_zero_iff hceil).mpr h0
        omega
      · exact h1
    obtain ⟨hbs, _⟩ := pyCeilDiv_ok hceil
    obtain ⟨hlow, hhigh⟩ := pyCeilDiv_bounds hceil hlen1
    rw [batchAt_length, Nat.mod_eq_of_lt hk]
    by_cases hfin : k = numB - 1
    · rw [if_pos hfin, hfin]
      have hs := Nat.sub_mul numB 1 a.batch_size
      rw [one_mul] at hs
      omega
    · rw [if_neg hfin]
      have h1 : (k + 1) * a.batch_size ≤ (numB - 1) * a.batch_size :=
        Nat.mul_le_mul_right _ (by omega)
      have h2 : (k + 1) * a.batch_size = k * a.batch_size + a.batch_size := by
        rw [Nat.add_mul, one_mul]
      omega

/-- Witness for the amended C3: the final batch `[[2]]` draws
`1 * num_pos * negative = 2` negatives, and batch lengths are `2` then
`1 = 3 - 1*2`. -/
theorem negsample_count_witness :
    (some (2 : ℤ)
        = some (((List.length ([[2]] : List Walk)) : ℤ) * numPos c3Args * (c3Args.negative : ℤ)))
      ∧ (batchAt c3Args w1Walks 2 1).length
          = if 1 = 2 - 1 then w1Walks.length - (2 - 1) * c3Args.batch_size
            else c3Args.batch_size :=
  ⟨(negsample_count_amended c3Args rfl).1 w1Walks 4 c3Evs rfl [[2]]
      (decayVal c3Args.lr 2 1) (some 2)
      (by simp only [c3Evs]; exact List.mem_map.mpr ⟨1, by simp, rfl⟩),
   (negsample_count_amended c3Args rfl).2.2 w1Walks 2 rfl 1 (by decide)⟩

/-- Claim C4: `init_device_emb` fails with an assertion failure exactly
when the configuration does not pick exactly one of
{only_cpu, only_gpu, mix}, or not exactly one of {sgd, adam, avg_sgd},
or has `num_procs < 1`; and under a failing configuration both training
paths (`fast_train`, here guarded by the batch-count computation that
precedes the check in the source, and `fast_train_mp`) stop with that
assertion failure, producing no trace — so no learning step runs. -/
theorem init_checks_iff :
    ∀ a : Args,
      ((initDeviceEmb a = .error .assertFail)
        ↔ ¬(exactlyOne a.only_cpu a.only_gpu a.mix
              ∧ exactlyOne a.sgd a.adam a.avg_sgd ∧ 1 ≤ a.num_procs))
      ∧ (¬(exactlyOne a.only_cpu a.only_gpu a.mix
              ∧ exactlyOne a.sgd a.adam a.avg_sgd ∧ 1 ≤ a.num_procs) →
          (∀ (embSize : ℕ) (shuffle : ℕ → List Walk → List Walk)
              (walks0 : List Walk) (fuel numB : ℕ),
            pyCeilDiv (embSize * a.num_walks) a.batch_size = .ok numB →
            fastTrain a embSize shuffle walks0 fuel = .error .assertFail)
          ∧ ∀ (shuffleOnce : List Walk → List Walk) (walks0 : List Walk) (fuel : ℕ),
            fastTrainMP a shuffleOnce walks0 fuel = .error .assertFail) := by
  intro a
  have hiff : (initDeviceEmb a = .error .assertFail)
      ↔ ¬(exactlyOne a.only_cpu a.only_gpu a.mix
            ∧ exactlyOne a.sgd a.adam a.avg_sgd ∧ 1 ≤ a.num_procs) := by
    unfold initDeviceEmb
    by_cases c1 : bsum [a.only_gpu, a.only_cpu, a.mix] = 1
    · rw [if_pos c1]
      by_cases c2 : 1 ≤ a.num_procs
      · rw [if_pos c2]
        by_cases c3 : bsum [a.sgd, a.adam, a.avg_sgd] = 1
        · rw [if_pos c3]
          constructor
          · intro h
            exact absurd h (by simp)
          · intro h
            exact absurd ⟨(bsum_mode_iff a).mp c1, (bsum_opt_iff a).mp c3, c2⟩ h
        · rw [if_neg c3]
          constructor
          · intro _ hcon
            exact c3 ((bsum_opt_iff a).mpr hcon.2.1)
          · intro _
            rfl
      · rw [if_neg c2]
        constructor
        · intro _ hcon
          exact c2 hcon.2.2
        · intro _
          rfl
    · rw [if_neg c1]
      constructor
      · intro _ hcon
        exact c1 ((bsum_mode_iff a).mpr hcon.1)
      · intro _
        rfl
  refine ⟨hiff, ?_⟩
  intro hbad
  have herr := hiff.mpr hbad
  constructor
  · intro embSize shuffle walks0 fuel numB hceil
    unfold fastTrain
    rw [hceil]
    dsimp only []
    rw [herr]
  · intro shuffleOnce walks0 fuel
    unfold fastTrainMP
    rw [herr]

/-- Witness for C4: the all-defaults configuration (no mode, no optimizer
selected) makes both training paths fail with the assertion failure. -/
theorem init_checks_witness :
    fastTrain { } 1 (fun _ l => l) ([] : List Walk) 3 = .error .assertFail
      ∧ fastTrainMP { } (fun l => l) ([] : List Walk) 3 = .error .assertFail :=
  ⟨((init_checks_iff { }).2 (by decide)).1 1 (fun _ l => l) [] 3 1 rfl,
   ((init_checks_iff { }).2 (by decide)).2 (fun l => l) [] 3⟩

/-- Claim C5: within a single run (one `fast_train` call or one worker's
`fast_train_sp` call), the learning rates passed to successive learn
calls are monotonically non-increasing, and every passed rate is at
least the floor `1e-5`. -/
theorem lr_monotone_and_floor :
    ∀ (a : Args) (embSize : ℕ) (shuffle : ℕ → List Walk → List Walk)
      (walks0 walks : List Walk) (fuel fuel2 : ℕ) (evs evs2 : List Event),
      (fastTrain a embSize shuffle walks0 fuel = .ok evs → MonoFloorLRs (learnLRs evs))
      ∧ (fastTrainSP a walks fuel2 = .ok evs2 → MonoFloorLRs (learnLRs evs2)) := by
  intro a embSize shuffle walks0 walks fuel fuel2 evs evs2
  constructor
  · intro h
    obtain ⟨numB, _, _, hL, hC, _⟩ := fastTrain_ok h
    rw [hL]
    exact monoFloor_map_decay _ _ _ hC
  · intro h
    obtain ⟨numB, hceil, hM, hB, _, _⟩ := fastTrainSP_ok h
    obtain ⟨hL, hcnt2, _, _⟩ := fastTrainSP_lrs hceil h
    rw [hL]
    apply monoFloor_map_decay
    have hit : 1 ≤ a.iterations := by
      by_contra hc
      have h0 : a.iterations = 0 := by omega
      rw [h0] at hM
      simp at hM
    calc (learnLRs evs2).length ≤ numB := hcnt2
    _ ≤ a.iterations * numB := Nat.le_mul_of_pos_left numB hit

/-- Witness for C5 on the two-epoch, two-batch configuration. -/
theorem lr_monotone_and_floor_witness :
    MonoFloorLRs (learnLRs w1FTEvs) ∧ MonoFloorLRs (learnLRs w1SPEvs) :=
  ⟨(lr_monotone_and_floor w1Args 3 (fun _ l => l) w1Walks w1Walks 2 4 w1FTEvs w1SPEvs).1 rfl,
   (lr_monotone_and_floor w1Args 3 (fun _ l => l) w1Walks w1Walks 2 4 w1FTEvs w1SPEvs).2 rfl⟩

/-- Claim C6: `fast_train` performs exactly `iterations` full epochs:
its trace is precisely `iterations` repetitions of a reshuffle of the
entire walk list followed by `num_batches = ceil(N * num_walks /
batch_size)` batches sliced at the fixed `batch_size` stride, and every
learning rate in the trace is computed with the horizon
`max_i = iterations * num_batches` (see `ftSpecTrace`). -/
theorem fastTrain_epoch_structure :
    ∀ (a : Args) (embSize : ℕ) (shuffle : ℕ → List Walk → List Walk)
      (walks0 : List Walk) (fuel numB : ℕ),
      pyCeilDiv (embSize * a.num_walks) a.batch_size = .ok numB →
      initDeviceEmb a = .ok () →
      walks0.length = embSize * a.num_walks →
      1 ≤ numB →
      (∀ ep l, (shuffle ep l).length = l.length) →
      numB ≤ fuel →
      fastTrain a embSize shuffle walks0 fuel
        = .ok (ftSpecTrace a shuffle walks0 numB) := by
  intro a embSize shuffle walks0 fuel numB hceil hinit hwalks hB hsh hfuel
  exact fastTrain_run a embSize shuffle walks0 fuel numB hceil hinit hwalks hB hsh hfuel

/-- Witness for C6 on the two-epoch, two-batch configuration. -/
theorem fastTrain_epoch_structure_witness :
    fastTrain w1Args 3 (fun _ l => l) w1Walks 2
      = .ok (ftSpecTrace w1Args (fun _ l => l) w1Walks 2) :=
  fastTrain_epoch_structure w1Args 3 (fun _ l => l) w1Walks 2 2 rfl rfl rfl
    (by decide) (fun _ _ => rfl) (by decide)

/-- Claim C7 counterexample: shards 0 and 1 of three walks across two
processes have different sizes (1 and 2), yet with `batch_size = 2` both
have `ceil(len/batch_size) = 1` and hence the same local horizon — so
"two workers with shards of different sizes use different horizons" is
false as stated. -/
theorem worker_horizon_counterexample :
    (mpShard 2 w1Walks 0).length = 1
      ∧ (mpShard 2 w1Walks 1).length = 2
      ∧ spHorizon c7Args (mpShard 2 w1Walks 0) = spHorizon c7Args (mpShard 2 w1Walks 1) :=
  ⟨rfl, rfl, rfl⟩

/-- Claim C7 (amended): each worker of `fast_train_mp` runs
`fast_train_sp` on its own shard only, so its result is a function of
that shard alone; its learning-rate schedule uses the purely local
horizon `iterations * ceil(len(own shard) / batch_size)`; and two
workers use different horizons whenever their shard *batch counts*
differ (with `iterations ≥ 1`) — shards of different sizes may share a
horizon when their batch counts coincide. -/
theorem worker_local_horizon :
    ∀ (a : Args) (shuffleOnce : List Walk → List Walk) (walks0 : List Walk)
      (fuel : ℕ) (res : List (Except Err (List Event))),
      (fastTrainMP a shuffleOnce walks0 fuel = .ok res →
        res = (List.range a.num_procs).map
          (fun i => fastTrainSP a (mpShard a.num_procs (shuffleOnce walks0) i) fuel))
      ∧ (∀ (walks : List Walk) (numB : ℕ) (evs : List Event),
          pyCeilDiv walks.length a.batch_size = .ok numB →
          fastTrainSP a walks fuel = .ok evs →
          spHorizon a walks = .ok (a.iterations * numB)
            ∧ learnLRs evs = (List.range (learnLRs evs).length).map
                (fun k => decayVal a.lr (a.iterations * numB) k))
      ∧ (∀ (w1 w2 : List Walk) (n1 n2 : ℕ),
          pyCeilDiv w1.length a.batch_size = .ok n1 →
          pyCeilDiv w2.length a.batch_size = .ok n2 →
          n1 ≠ n2 → 1 ≤ a.iterations →
          spHorizon a w1 ≠ spHorizon a w2) := by
  intro a shuffleOnce walks0 fuel res
  refine ⟨?_, ?_, ?_⟩
  · intro h
    unfold fastTrainMP at h
    cases h2 : initDeviceEmb a with
    | error e =>
      rw [h2] at h
      exact absurd h (by simp)
    | ok u =>
      cases u
      rw [h2] at h
      dsimp only [] at h
      simp only [Except.ok.injEq] at h
      exact h.symm
  · intro walks numB evs hceil h
    refine ⟨?_, (fastTrainSP_lrs hceil h).1⟩
    unfold spHorizon
    rw [hceil]
    rfl
  · intro w1 w2 n1 n2 hc1 hc2 hne hit heq
    have e1 : spHorizon a w1 = .ok (a.iterations * n1) := by
      unfold spHorizon
      rw [hc1]
      rfl
    have e2 : spHorizon a w2 = .ok (a.iterations * n2) := by
      unfold spHorizon
      rw [hc2]
      rfl
    rw [e1, e2] at heq
    injection heq with heq
    exact hne (Nat.eq_of_mul_eq_mul_left hit heq)

/-- Witness for the amended C7: the two-process run on three walks, the
size-2 shard's horizon and schedule, and the different horizons of
shards with batch counts 1 and 2. -/
theorem worker_local_horizon_witness :
    ([Except.ok [stepEv c7Args (numPos c7Args) [[0]] 1 1 0],
      Except.ok [stepEv c7Args (numPos c7Args) [[1], [2]] 1 1 0]]
        = (List.range c7Args.num_procs).map
            (fun i => fastTrainSP c7Args (mpShard c7Args.num_procs ((fun l => l) w1Walks) i) 5))
      ∧ (spHorizon c7Args [[1], [2]] = .ok (c7Args.iterations * 1)
          ∧ learnLRs [stepEv c7Args (numPos c7Args) [[1], [2]] 1 1 0]
              = (List.range (learnLRs [stepEv c7Args (numPos c7Args) [[1], [2]] 1 1 0]).length).map
                  (fun k => decayVal c7Args.lr (c7Args.iterations * 1) k))
      ∧ spHorizon c7Args [[0]] ≠ spHorizon c7Args w1Walks :=
  ⟨(worker_local_horizon c7Args (fun l => l) w1Walks 5
      [Except.ok [stepEv c7Args (numPos c7Args) [[0]] 1 1 0],
       Except.ok [stepEv c7Args (numPos c7Args) [[1], [2]] 1 1 0]]).1 rfl,
   (worker_local_horizon c7Args (fun l => l) w1Walks 5 []).2.1 [[1], [2]] 1
      [stepEv c7Args (numPos c7Args) [[1], [2]] 1 1 0] rfl rfl,
   (worker_local_horizon c7Args (fun l => l) w1Walks 5 []).2.2 [[0]] w1Walks 1 2
      rfl rfl (by decide) (by decide)⟩

/-- Claim C8 counterexample: with `iterations = 0` and a non-empty
one-walk shard (so `num_batches = 1`), `fast_train_sp` raises
`ZeroDivisionError` at its first learning-rate computation
(`max_i = 0 * 1 = 0`) instead of terminating after `num_batches`
learning steps — the step count is not independent of `iterations`. -/
theorem single_pass_counterexample :
    fastTrainSP c8Args [[0]] 5 = .error .zeroDivLR
      ∧ pyCeilDiv (List.length ([[0]] : List Walk)) c8Args.batch_size = .ok 1 :=
  ⟨rfl, rfl⟩

/-- Claim C8 (amended): for `batch_size ≥ 1` and `iterations ≥ 1`, the
`fast_train_sp` loop on a non-empty shard terminates after exactly
`num_batches = ceil(len(walks) / batch_size)` learning steps — a single
pass over the shard, the trace being the `num_batches` step events in
order; `iterations` enters only the horizon `max_i` inside the
learning-rate values, not the number of steps. -/
theorem fastTrainSP_single_pass :
    ∀ (a : Args) (walks : List Walk) (fuel numB : ℕ),
      pyCeilDiv walks.length a.batch_size = .ok numB →
      1 ≤ walks.length → 1 ≤ a.iterations → numB ≤ fuel →
      fastTrainSP a walks fuel
        = .ok ((List.range numB).map (fun k =>
            stepEv a (numPos a) walks numB (a.iterations * numB) k)) := by
  intro a walks fuel numB hceil hlen hit hfuel
  exact fastTrainSP_run a walks fuel numB hceil hlen hit hfuel

/-- Witness for the amended C8 on the two-batch shard. -/
theorem fastTrainSP_single_pass_witness :
    fastTrainSP w1Args w1Walks 4
      = .ok ((List.range 2).map (fun k =>
          stepEv w1Args (numPos w1Args) w1Walks 2 (w1Args.iterations * 2) k)) :=
  fastTrainSP_single_pass w1Args w1Walks 4 2 rfl (by decide) (by decide) (by decide)

/-- Claim C9: whenever the walk list is shorter than `num_procs`, shard 0
is empty (`int(0*L/P) = int(1*L/P) = 0`); on an empty shard
`num_batches = ceil(0 / batch_size) = 0`, hence
`max_i = iterations * 0 = 0`, and the first learning-rate computation of
`fast_train_sp` divides by zero, raising an exception instead of the
worker completing with zero steps. -/
theorem empty_shard_divzero :
    ∀ (a : Args) (walks : List Walk) (fuel : ℕ),
      (walks.length < a.num_procs → mpShard a.num_procs walks 0 = [])
      ∧ (1 ≤ a.batch_size →
          pyCeilDiv (List.length ([] : List Walk)) a.batch_size = .ok 0)
      ∧ (1 ≤ a.batch_size → 1 ≤ fuel →
          fastTrainSP a [] fuel = .error .zeroDivLR) := by
  intro a walks fuel
  have hceil0 : 1 ≤ a.batch_size →
      pyCeilDiv (List.length ([] : List Walk)) a.batch_size = .ok 0 := by
    intro hbs
    rw [pyCeilDiv_eq hbs]
    have : (List.length ([] : List Walk) + a.batch_size - 1) / a.batch_size = 0 :=
      Nat.div_eq_of_lt (by simp; omega)
    rw [this]
  refine ⟨?_, hceil0, ?_⟩
  · intro hlt
    unfold mpShard pySlice shardStart
    simp [Nat.div_eq_of_lt hlt]
  · intro hbs hfuel
    unfold fastTrainSP
    rw [hceil0 hbs]
    dsimp only []
    obtain ⟨f, rfl⟩ : ∃ f, fuel = f + 1 := ⟨fuel - 1, by omega⟩
    rw [trainLoop, Nat.mul_zero]
    unfold decayLR
    rw [if_pos rfl]

/-- Witness for C9: one walk over two processes gives an empty shard 0,
and a worker on an empty shard raises the division-by-zero error. -/
theorem empty_shard_divzero_witness :
    mpShard c7Args.num_procs [[0]] 0 = []
      ∧ fastTrainSP okArgs [] 1 = .error .zeroDivLR :=
  ⟨(empty_shard_divzero c7Args [[0]] 1).1 (by decide),
   (empty_shard_divzero okArgs [] 1).2.2 (by decide) (by decide)⟩

/-- Claim C10: the `--fast_neg` option is declared with
`action="store_true"` and `default=True`, so its value is `true` whether
or not the flag is present — no command line yields `False`; under
`fast_neg = true` every learn call of `fast_train_sp` and `fast_train`
passes no table-drawn negative nodes (`negSize = none`), so the
table-based negative-sampling branch is unreachable from the CLI. -/
theorem fast_neg_cli_always_true :
    ∀ present : Bool, argFastNeg present = true
      ∧ (∀ (a : Args) (walks : List Walk) (fuel : ℕ) (evs : List Event)
          (b : List Walk) (lr : ℚ) (ns : Option ℤ),
          a.fast_neg = argFastNeg present →
          fastTrainSP a walks fuel = .ok evs →
          Event.learn b lr ns ∈ evs → ns = none)
      ∧ (∀ (a : Args) (embSize : ℕ) (shuffle : ℕ → List Walk → List Walk)
          (walks0 : List Walk) (fuel : ℕ) (evs : List Event)
          (b : List Walk) (lr : ℚ) (ns : Option ℤ),
          a.fast_neg = argFastNeg present →
          fastTrain a embSize shuffle walks0 fuel = .ok evs →
          Event.learn b lr ns ∈ evs → ns = none) := by
  intro present
  have htrue : argFastNeg present = true := by
    unfold argFastNeg storeTrue
    cases present <;> rfl
  refine ⟨htrue, ?_, ?_⟩
  · intro a walks fuel evs b lr ns hfn h hmem
    rw [htrue] at hfn
    obtain ⟨numB', _, _, _, hevs, _⟩ := fastTrainSP_ok h
    rw [hevs, List.mem_map] at hmem
    obtain ⟨k, _, hk⟩ := hmem
    exact mkLearn_inv_fast hfn hk.symm
  · intro a embSize shuffle walks0 fuel evs b lr ns hfn h hmem
    rw [htrue] at hfn
    obtain ⟨numB', _, _, _, _, hS⟩ := fastTrain_ok h
    rcases hS _ hmem with hsh | ⟨batch, lrv, heq⟩
    · exact absurd hsh (by simp)
    · exact mkLearn_inv_fast hfn heq

/-- Witness for C10: with the flag absent, `fast_neg` is still `true`,
and a concrete run's learn call carries no table-drawn negatives. -/
theorem fast_neg_cli_witness :
    argFastNeg false = true ∧ (none : Option ℤ) = none :=
  ⟨(fast_neg_cli_always_true false).1,
   (fast_neg_cli_always_true false).2.1 okArgs [[0]] 1
      [stepEv okArgs (numPos okArgs) [[0]] 1 1 0] [[0]]
      (decayVal okArgs.lr 1 0) none rfl rfl
      (by exact List.mem_singleton.mpr rfl)⟩

end Deepwalk
